import Mathlib

/-!
Verification development for the truth-table generator
(`truth_table_generator.cpp`).  The pipeline — lexical scanning,
validation, infix-to-postfix conversion (shunting yard) and stack-based
postfix evaluation — is embedded shallowly below, and the behavioural
claims about it are settled as theorems.

Modelling conventions:
* C++ `std::vector<Token>` is `List Token`; `std::stack` is a `List`
  whose head is the stack top; `std::string` is `List Char` and string
  comparison is the lexicographic order on `List Char`.
* `std::map<std::string, Token>` (the variable registry) iterates in
  increasing key order, so it is modelled as a sorted `List` of keys
  maintained by ordered insertion.
* Out-of-range vector indexing is undefined behaviour.  The validator is
  therefore modelled twice: `validateTokenString jlo jhi` takes the
  values that the two possible out-of-range reads (index -1 and index
  `size`) would yield as parameters, and `checkedValidate` returns
  `none` as soon as any out-of-range read happens, following the C++
  short-circuit evaluation order exactly.
* Popping an empty operand/operator stack is undefined behaviour and is
  modelled with `Option`.
-/

/-- `Token::Type` from the source. -/
inductive TokenType
  | TRUTH_VALUE
  | PROPOSITION
  | NEGATION
  | CONJUNCTION
  | DISJUNCTION
  | IMPLICATION
  | BICONDITIONAL
  | LPAREN
  | RPAREN
deriving DecidableEq, Repr

/-- `Token`: the four fields of the C++ class.  `Token::Precedence` is the
integer rank `L1 = 0, ..., L5 = 4, NA = 5`. -/
structure Token where
  type : TokenType
  precedence : Nat
  value : Bool
  lexeme : List Char
deriving DecidableEq, Repr

/-- `Token::isOperator`. -/
def Token.isOperator (t : Token) : Bool :=
  match t.type with
  | .NEGATION | .CONJUNCTION | .DISJUNCTION | .IMPLICATION | .BICONDITIONAL => true
  | _ => false

/-- The default-constructed `Token()`: `TRUTH_VALUE`, precedence `NA`,
value `false`, lexeme `"null"`. -/
def defaultToken : Token := ⟨.TRUTH_VALUE, 5, false, ['n', 'u', 'l', 'l']⟩

/-- `Lexer::scanTokens`/`scanToken`: one left-to-right pass.  `matchNext`
advances the cursor unconditionally, so a `-` not followed by `>` also
consumes the following character, and likewise for `<`. -/
def scanTokens : List Char → List Token
  | [] => []
  | c :: rest =>
    if c = ' ' then scanTokens rest
    else if c = '0' ∨ c = 'F' then ⟨.TRUTH_VALUE, 5, false, [c]⟩ :: scanTokens rest
    else if c = '1' ∨ c = 'T' then ⟨.TRUTH_VALUE, 5, true, [c]⟩ :: scanTokens rest
    else if c = '(' then ⟨.LPAREN, 5, false, ['(']⟩ :: scanTokens rest
    else if c = ')' then ⟨.RPAREN, 5, false, [')']⟩ :: scanTokens rest
    else if c = '^' ∨ c = '*' then ⟨.CONJUNCTION, 1, false, [c]⟩ :: scanTokens rest
    else if c = 'v' ∨ c = '+' then ⟨.DISJUNCTION, 2, false, [c]⟩ :: scanTokens rest
    else if c = '!' ∨ c = '~' then ⟨.NEGATION, 0, false, [c]⟩ :: scanTokens rest
    else if c = '-' then
      match rest with
      | [] => []
      | c2 :: rest2 =>
        if c2 = '>' then ⟨.IMPLICATION, 3, false, ['-', '>']⟩ :: scanTokens rest2
        else scanTokens rest2
    else if c = '<' then
      match rest with
      | [] => []
      | c2 :: rest2 =>
        if c2 = '-' then
          match rest2 with
          | [] => []
          | c3 :: rest3 =>
            if c3 = '>' then ⟨.BICONDITIONAL, 4, false, ['<', '-', '>']⟩ :: scanTokens rest3
            else scanTokens rest3
        else scanTokens rest2
    else ⟨.PROPOSITION, 5, false, [c]⟩ :: scanTokens rest

/-- Ordered insertion without overwrite: the effect of
`std::map::insert` on the sorted key list. -/
def insertSorted (nm : List Char) : List (List Char) → List (List Char)
  | [] => [nm]
  | x :: xs =>
    if nm = x then x :: xs
    else if nm < x then nm :: x :: xs
    else x :: insertSorted nm xs

/-- The registry effect of scanning one token: only a `PROPOSITION`
inserts its lexeme. -/
def registryInsert (acc : List (List Char)) (t : Token) : List (List Char) :=
  match t.type with
  | .PROPOSITION => insertSorted t.lexeme acc
  | _ => acc

/-- The key list of `Lexer::_proposition_tokens` (a `std::map`, iterated
in increasing key order): every scanned `PROPOSITION` lexeme inserted in
scan order. -/
def registryNames (ts : List Token) : List (List Char) :=
  ts.foldl registryInsert []

/-- The variable lexemes in source order (with repetitions). -/
def varLexemes (ts : List Token) : List (List Char) :=
  (ts.filter (fun t => t.type == .PROPOSITION)).map Token.lexeme

/-- Specification-side definition, following the spec words: the
distinct variable names "in the left-to-right order in which the
variables first occur in the source text". -/
def specFirstOccurrenceOrder (ts : List Token) : List (List Char) :=
  (varLexemes ts).foldl (fun acc nm => if acc.contains nm then acc else acc ++ [nm]) []

/-- The characters the scanner recognizes as literals, operators,
parentheses or whitespace: every other character reached at the start
of a scan step becomes a one-character variable. -/
def opChars : List Char :=
  ['0', '1', 'F', 'T', '(', ')', '^', '*', 'v', '+', '!', '~', '-', '<', ' ']

/-- One iteration of `validateTokenString`'s loop, with the two possible
out-of-range reads (`tokens[-1]` when `i = 0`, `tokens[size]` when `i`
is the last index) replaced by the parameters `jlo` and `jhi`: the loop
body's conditions verbatim, including the disjunction shapes and the
`&&` precedence of the C++ expressions. -/
def validTokenAt (jlo jhi : Token) (ts : List Token) (i : Nat) : Bool :=
  let cur := ts.getD i defaultToken
  let next := if i + 1 < ts.length then ts.getD (i + 1) defaultToken else jhi
  let prev := if i = 0 then jlo else ts.getD (i - 1) defaultToken
  match cur.type with
  | .TRUTH_VALUE | .PROPOSITION =>
      ts.length == 1 ||
      (next.isOperator && !(next.type == .NEGATION)) ||
      prev.isOperator ||
      prev.type == .LPAREN
  | .NEGATION =>
      next.type == .TRUTH_VALUE ||
      next.type == .PROPOSITION ||
      next.type == .LPAREN ||
      next.type == .NEGATION ||
      prev.type == .LPAREN ||
      (prev.isOperator && !(next.type == .NEGATION))
  | .CONJUNCTION | .DISJUNCTION | .IMPLICATION | .BICONDITIONAL =>
      next.type == .TRUTH_VALUE ||
      next.type == .PROPOSITION ||
      next.type == .LPAREN ||
      next.type == .NEGATION ||
      prev.type == .TRUTH_VALUE ||
      prev.type == .PROPOSITION ||
      prev.type == .RPAREN
  | _ => true

/-- `validateTokenString`, parameterised by the junk values of the two
possible out-of-range reads. -/
def validateTokenString (jlo jhi : Token) (ts : List Token) : Bool :=
  (List.range ts.length).all (validTokenAt jlo jhi ts)

/-- `tokens[i + 1]` with a bounds check. -/
def checkedNext (ts : List Token) (i : Nat) : Option Token := ts.get? (i + 1)

/-- `tokens[i - 1]` with a bounds check (`i = 0` reads index -1). -/
def checkedPrev (ts : List Token) (i : Nat) : Option Token :=
  if i = 0 then none else ts.get? (i - 1)

/-- One iteration of `validateTokenString`'s loop where every indexed
access is bounds-checked and the C++ short-circuit evaluation order is
kept: `none` means the iteration performs an out-of-range read. -/
def checkedCondAt (ts : List Token) (i : Nat) : Option Bool :=
  match (ts.getD i defaultToken).type with
  | .TRUTH_VALUE | .PROPOSITION =>
      if ts.length == 1 then some true
      else
        match checkedNext ts i with
        | none => none
        | some nx =>
          if nx.isOperator && !(nx.type == .NEGATION) then some true
          else
            match checkedPrev ts i with
            | none => none
            | some pv => some (pv.isOperator || pv.type == .LPAREN)
  | .NEGATION =>
      match checkedNext ts i with
      | none => none
      | some nx =>
        if nx.type == .TRUTH_VALUE || nx.type == .PROPOSITION ||
            nx.type == .LPAREN || nx.type == .NEGATION then some true
        else
          match checkedPrev ts i with
          | none => none
          | some pv =>
            some (pv.type == .LPAREN || (pv.isOperator && !(nx.type == .NEGATION)))
  | .CONJUNCTION | .DISJUNCTION | .IMPLICATION | .BICONDITIONAL =>
      match checkedNext ts i with
      | none => none
      | some nx =>
        if nx.type == .TRUTH_VALUE || nx.type == .PROPOSITION ||
            nx.type == .LPAREN || nx.type == .NEGATION then some true
        else
          match checkedPrev ts i with
          | none => none
          | some pv =>
            some (pv.type == .TRUTH_VALUE || pv.type == .PROPOSITION ||
              pv.type == .RPAREN)
  | _ => some true

/-- `validateTokenString` with bounds-checked accesses: `none` as soon
as any loop iteration reads out of range. -/
def checkedValidate (ts : List Token) : Option Bool :=
  (List.range ts.length).foldl
    (fun acc i =>
      match acc, checkedCondAt ts i with
      | some f, some c => some (f && c)
      | _, _ => none)
    (some true)

/-- The pop loop an incoming operator of precedence `p` runs in
`toPostFix`: `while (!operators.empty() && p > top.precedence) pop`.
Returns (popped operators in pop order, remaining stack). -/
def popWhileHigher (p : Nat) : List Token → List Token × List Token
  | [] => ([], [])
  | t :: rest =>
    if p > t.precedence then
      let pr := popWhileHigher p rest
      (t :: pr.1, pr.2)
    else ([], t :: rest)

/-- The pop loop a `RPAREN` runs in `toPostFix`:
`while (top.type != LPAREN) pop` then pop the `LPAREN`.  `top` on an
empty stack is undefined behaviour, hence `Option`.  Returns (popped
operators in pop order, stack below the discarded `LPAREN`). -/
def popUntilLParen : List Token → Option (List Token × List Token)
  | [] => none
  | t :: rest =>
    if t.type = .LPAREN then some ([], rest)
    else
      match popUntilLParen rest with
      | some pr => some (t :: pr.1, pr.2)
      | none => none

/-- One step of the shunting-yard loop of `toPostFix` on the state
(operator stack, output). -/
def syStep (st : List Token × List Token) (t : Token) : Option (List Token × List Token) :=
  if t.isOperator then
    let pr := popWhileHigher t.precedence st.1
    some (t :: pr.2, st.2 ++ pr.1)
  else if t.type = .LPAREN then some (t :: st.1, st.2)
  else if t.type = .RPAREN then
    match popUntilLParen st.1 with
    | some pr => some (pr.2, st.2 ++ pr.1)
    | none => none
  else some (st.1, st.2 ++ [t])

/-- The shunting-yard loop of `toPostFix` over the whole token list. -/
def syRun : List Token → List Token × List Token → Option (List Token × List Token)
  | [], st => some st
  | t :: ts, st =>
    match syStep st t with
    | some st2 => syRun ts st2
    | none => none

/-- `toPostFix`: run the loop from empty stacks, then flush the
remaining operator stack to the output, top first. -/
def toPostFix (ts : List Token) : Option (List Token) :=
  match syRun ts ([], []) with
  | some st => some (st.2 ++ st.1)
  | none => none

/-- C++ `left <= right` on `bool` (the `IMPLICATION` case of the
evaluator): comparison of the integer promotions. -/
def cppLe (left right : Bool) : Bool := decide (left.toNat ≤ right.toNat)

/-- `solveBinary` from `evaluate`: pop `right`, pop `left`, apply.
Popping an empty stack is undefined behaviour, hence `Option`. -/
def solveBinary (f : Bool → Bool → Bool) : List Bool → Option (List Bool)
  | right :: left :: rest => some (f left right :: rest)
  | _ => none

/-- `solveUnary` from `evaluate`: pop `right`, apply. -/
def solveUnary (f : Bool → Bool) : List Bool → Option (List Bool)
  | right :: rest => some (f right :: rest)
  | _ => none

/-- One iteration of the postfix-evaluation loop in `evaluate`: the
switch on the token type.  `sigma` is the current binding of variable
lexemes (the registry lookup `propositions[t.lexeme()].value()`).
`LPAREN`/`RPAREN` fall into `default: break`. -/
def evalStep (sigma : List Char → Bool) (stack : List Bool) (t : Token) : Option (List Bool) :=
  match t.type with
  | .TRUTH_VALUE => some (t.value :: stack)
  | .PROPOSITION => some (sigma t.lexeme :: stack)
  | .NEGATION => solveUnary (fun right => !right) stack
  | .CONJUNCTION => solveBinary (fun left right => left && right) stack
  | .DISJUNCTION => solveBinary (fun left right => left || right) stack
  | .IMPLICATION => solveBinary (fun left right => cppLe left right) stack
  | .BICONDITIONAL => solveBinary (fun left right => left == right) stack
  | _ => some stack

/-- The postfix-evaluation loop over a whole postfix token list. -/
def evalRun (sigma : List Char → Bool) : List Token → List Bool → Option (List Bool)
  | [], stack => some stack
  | t :: ts, stack =>
    match evalStep sigma stack t with
    | some stack2 => evalRun sigma ts stack2
    | none => none

/-- One table row's result: run the postfix loop on an empty operand
stack, then read `operands.top()` (undefined behaviour when empty). -/
def evalRow (sigma : List Char → Bool) (rpn : List Token) : Option Bool :=
  match evalRun sigma rpn [] with
  | some (r :: _) => some r
  | _ => none

/-- The value row `i` binds to the variable at position `j` (in registry
iteration order) out of `n`: `!(1 == ((i >> (n - 1 - j)) & 1))` with
`j` counting down in the source. -/
def rowBinding (n i j : Nat) : Bool := !((i >>> (n - 1 - j)) &&& 1 == 1)

/-- All `n` bindings of row `i`, in registry iteration order. -/
def rowBindings (n i : Nat) : List Bool :=
  (List.range n).map (rowBinding n i)

/-- Registry lookup during evaluation: `propositions[t.lexeme()]`
default-inserts a token with value `false` when the lexeme is absent. -/
def bindingOf (names : List (List Char)) (binds : List Bool) (nm : List Char) : Bool :=
  binds.getD (names.indexOf nm) false

/-- The table driver loop of `evaluate`: `2 ^ N` rows; row `i` carries
its bindings and the result of evaluating the postfix form under them
(`none` when conversion or evaluation hits undefined behaviour).  The
C++ declares one `operands` stack outside the row loop and pops once
after reading each row's result, so the stack is empty again at the
start of the next row whenever evaluation is defined; each row is
therefore modelled as starting from an empty stack. -/
def truthTable (names : List (List Char)) (ts : List Token) : List (List Bool × Option Bool) :=
  (List.range (2 ^ names.length)).map (fun i =>
    let binds := rowBindings names.length i
    (binds,
      match toPostFix ts with
      | some rpn => evalRow (bindingOf names binds) rpn
      | none => none))

/-- Abstract syntax of propositional expressions, used to state the
evaluator- and converter-correctness claims. -/
inductive PropForm
  | lit (b : Bool)
  | pvar (nm : List Char)
  | neg (e : PropForm)
  | conj (l r : PropForm)
  | disj (l r : PropForm)
  | impl (l r : PropForm)
  | bicond (l r : PropForm)
deriving DecidableEq, Repr

/-- The standard boolean semantics the spec describes. -/
def evalProp (sigma : List Char → Bool) : PropForm → Bool
  | .lit b => b
  | .pvar nm => sigma nm
  | .neg e => !(evalProp sigma e)
  | .conj l r => evalProp sigma l && evalProp sigma r
  | .disj l r => evalProp sigma l || evalProp sigma r
  | .impl l r => !(evalProp sigma l) || evalProp sigma r
  | .bicond l r => evalProp sigma l == evalProp sigma r

def negT : Token := ⟨.NEGATION, 0, false, ['!']⟩
def conjT : Token := ⟨.CONJUNCTION, 1, false, ['^']⟩
def disjT : Token := ⟨.DISJUNCTION, 2, false, ['v']⟩
def implT : Token := ⟨.IMPLICATION, 3, false, ['-', '>']⟩
def bicondT : Token := ⟨.BICONDITIONAL, 4, false, ['<', '-', '>']⟩
def lparenT : Token := ⟨.LPAREN, 5, false, ['(']⟩
def rparenT : Token := ⟨.RPAREN, 5, false, [')']⟩
def litT (b : Bool) : Token := ⟨.TRUTH_VALUE, 5, b, [if b then '1' else '0']⟩
def pvarT (nm : List Char) : Token := ⟨.PROPOSITION, 5, false, nm⟩

/-- The well-formed postfix linearisation of an expression. -/
def rpnOf : PropForm → List Token
  | .lit b => [litT b]
  | .pvar nm => [pvarT nm]
  | .neg e => rpnOf e ++ [negT]
  | .conj l r => rpnOf l ++ rpnOf r ++ [conjT]
  | .disj l r => rpnOf l ++ rpnOf r ++ [disjT]
  | .impl l r => rpnOf l ++ rpnOf r ++ [implT]
  | .bicond l r => rpnOf l ++ rpnOf r ++ [bicondT]

/-- The fully parenthesised infix rendering of an expression. -/
def renderParen : PropForm → List Token
  | .lit b => [litT b]
  | .pvar nm => [pvarT nm]
  | .neg e => lparenT :: negT :: (renderParen e ++ [rparenT])
  | .conj l r => lparenT :: (renderParen l ++ conjT :: (renderParen r ++ [rparenT]))
  | .disj l r => lparenT :: (renderParen l ++ disjT :: (renderParen r ++ [rparenT]))
  | .impl l r => lparenT :: (renderParen l ++ implT :: (renderParen r ++ [rparenT]))
  | .bicond l r => lparenT :: (renderParen l ++ bicondT :: (renderParen r ++ [rparenT]))

/-- The parenthesis-free infix rendering of an expression. -/
def renderFlat : PropForm → List Token
  | .lit b => [litT b]
  | .pvar nm => [pvarT nm]
  | .neg e => negT :: renderFlat e
  | .conj l r => renderFlat l ++ conjT :: renderFlat r
  | .disj l r => renderFlat l ++ disjT :: renderFlat r
  | .impl l r => renderFlat l ++ implT :: renderFlat r
  | .bicond l r => renderFlat l ++ bicondT :: renderFlat r

/-- Precedence rank of an expression's root: operands and negations
bind tightest (rank 0), then conjunction 1, disjunction 2, implication
3, biconditional 4 — the source order `L1 < L2 < L3 < L4 < L5`. -/
def rootPrec : PropForm → Nat
  | .lit _ => 0
  | .pvar _ => 0
  | .neg _ => 0
  | .conj _ _ => 1
  | .disj _ _ => 2
  | .impl _ _ => 3
  | .bicond _ _ => 4

/-- The expressions whose parenthesis-free rendering is grammatically
faithful under the precedence order, with same-level binary operators
grouping to the right (the converter keeps equal precedence on the
stack): each left operand binds strictly tighter than its operator,
each right operand at least as tight, and negation applies only to
operands or negations. -/
def noParenOK : PropForm → Bool
  | .lit _ => true
  | .pvar _ => true
  | .neg e => (rootPrec e == 0) && noParenOK e
  | .conj l r => decide (rootPrec l < 1) && decide (rootPrec r ≤ 1) && noParenOK l && noParenOK r
  | .disj l r => decide (rootPrec l < 2) && decide (rootPrec r ≤ 2) && noParenOK l && noParenOK r
  | .impl l r => decide (rootPrec l < 3) && decide (rootPrec r ≤ 3) && noParenOK l && noParenOK r
  | .bicond l r => decide (rootPrec l < 4) && decide (rootPrec r ≤ 4) && noParenOK l && noParenOK r

/-- Converting then evaluating one assignment, as `evaluate` does. -/
def convertAndEval (sigma : List Char → Bool) (ts : List Token) : Option Bool :=
  match toPostFix ts with
  | some rpn => evalRow sigma rpn
  | none => none

/-- Tokens pushed onto the operator stack and still pending there after
the converter has consumed the parenthesis-free rendering: the right
spine of operators, innermost on top. -/
def syPending : PropForm → List Token
  | .lit _ => []
  | .pvar _ => []
  | .neg e => syPending e ++ [negT]
  | .conj _ r => syPending r ++ [conjT]
  | .disj _ r => syPending r ++ [disjT]
  | .impl _ r => syPending r ++ [implT]
  | .bicond _ r => syPending r ++ [bicondT]

/-- Output already emitted by the converter after consuming the
parenthesis-free rendering. -/
def syEmit : PropForm → List Token
  | .lit b => [litT b]
  | .pvar nm => [pvarT nm]
  | .neg e => syEmit e
  | .conj l r => syEmit l ++ syPending l ++ syEmit r
  | .disj l r => syEmit l ++ syPending l ++ syEmit r
  | .impl l r => syEmit l ++ syPending l ++ syEmit r
  | .bicond l r => syEmit l ++ syPending l ++ syEmit r

/-- Prefix-balance check on parentheses: every prefix closes at most as
many parentheses as it opens, and the whole list balances. -/
def balAux : List Token → Nat → Bool
  | [], n => n == 0
  | t :: ts, n =>
    match t.type with
    | .LPAREN => balAux ts (n + 1)
    | .RPAREN => n != 0 && balAux ts (n - 1)
    | _ => balAux ts n

def balanced (ts : List Token) : Bool := balAux ts 0

def isLP (t : Token) : Bool := t.type == .LPAREN

def nonParen (t : Token) : Bool := !(t.type == .LPAREN) && !(t.type == .RPAREN)

/-- The precedence rank each token type is scanned with. -/
def canonicalPrec : TokenType → Nat
  | .NEGATION => 0
  | .CONJUNCTION => 1
  | .DISJUNCTION => 2
  | .IMPLICATION => 3
  | .BICONDITIONAL => 4
  | _ => 5

/-- A token whose stored precedence matches its type, as all scanned
tokens do. -/
def wfToken (t : Token) : Bool := t.precedence == canonicalPrec t.type

theorem evalRun_append (sigma : List Char → Bool) (xs ys : List Token) (stack : List Bool) :
    evalRun sigma (xs ++ ys) stack =
      match evalRun sigma xs stack with
      | some st2 => evalRun sigma ys st2
      | none => none := by
  induction xs generalizing stack with
  | nil => rfl
  | cons t xt ih =>
    simp only [List.cons_append, evalRun]
    cases evalStep sigma stack t with
    | none => rfl
    | some st2 => exact ih st2

theorem cppLe_eq (l r : Bool) : cppLe l r = (!l || r) := by
  cases l <;> cases r <;> rfl

theorem evalRun_rpnOf (sigma : List Char → Bool) (e : PropForm) : ∀ stack : List Bool,
    evalRun sigma (rpnOf e) stack = some (evalProp sigma e :: stack) := by
  induction e with
  | lit b => intro stack; rfl
  | pvar nm => intro stack; rfl
  | neg e ih =>
    intro stack
    simp only [rpnOf, evalRun_append, ih]
    rfl
  | conj l r ihl ihr =>
    intro stack
    simp only [rpnOf, List.append_assoc, evalRun_append, ihl, ihr]
    rfl
  | disj l r ihl ihr =>
    intro stack
    simp only [rpnOf, List.append_assoc, evalRun_append, ihl, ihr]
    rfl
  | impl l r ihl ihr =>
    intro stack
    simp only [rpnOf, List.append_assoc, evalRun_append, ihl, ihr, evalRun, evalStep,
      solveBinary, implT, cppLe_eq]
    rfl
  | bicond l r ihl ihr =>
    intro stack
    simp only [rpnOf, List.append_assoc, evalRun_append, ihl, ihr]
    rfl

/-- C1.  For every well-formed postfix token sequence (the postfix
linearisation of an expression) and every variable assignment, the
evaluator implements the standard boolean semantics: a literal pushes
its constant, a variable pushes its bound value, negation pops one
operand and pushes its complement, and each binary operator pops the
right operand first, then the left, and pushes conjunction
`left AND right`, disjunction `left OR right`, implication
`not left or right` (the C++ `left <= right`), and biconditional
`left equals right`; consequently running the evaluator on the postfix
form of any expression pushes exactly its standard truth value. -/
theorem evaluator_standard_semantics :
    (∀ (sigma : List Char → Bool) (stack : List Bool) (p : Nat) (b : Bool) (lex : List Char),
      evalStep sigma stack ⟨.TRUTH_VALUE, p, b, lex⟩ = some (b :: stack)) ∧
    (∀ (sigma : List Char → Bool) (stack : List Bool) (p : Nat) (b : Bool) (lex : List Char),
      evalStep sigma stack ⟨.PROPOSITION, p, b, lex⟩ = some (sigma lex :: stack)) ∧
    (∀ (sigma : List Char → Bool) (stack : List Bool) (r : Bool) (p : Nat) (b : Bool)
        (lex : List Char),
      evalStep sigma (r :: stack) ⟨.NEGATION, p, b, lex⟩ = some ((!r) :: stack)) ∧
    (∀ (sigma : List Char → Bool) (stack : List Bool) (l r : Bool) (p : Nat) (b : Bool)
        (lex : List Char),
      evalStep sigma (r :: l :: stack) ⟨.CONJUNCTION, p, b, lex⟩ = some ((l && r) :: stack)) ∧
    (∀ (sigma : List Char → Bool) (stack : List Bool) (l r : Bool) (p : Nat) (b : Bool)
        (lex : List Char),
      evalStep sigma (r :: l :: stack) ⟨.DISJUNCTION, p, b, lex⟩ = some ((l || r) :: stack)) ∧
    (∀ (sigma : List Char → Bool) (stack : List Bool) (l r : Bool) (p : Nat) (b : Bool)
        (lex : List Char),
      evalStep sigma (r :: l :: stack) ⟨.IMPLICATION, p, b, lex⟩ = some ((!l || r) :: stack)) ∧
    (∀ (sigma : List Char → Bool) (stack : List Bool) (l r : Bool) (p : Nat) (b : Bool)
        (lex : List Char),
      evalStep sigma (r :: l :: stack) ⟨.BICONDITIONAL, p, b, lex⟩ = some ((l == r) :: stack)) ∧
    (∀ (sigma : List Char → Bool) (e : PropForm) (stack : List Bool),
      evalRun sigma (rpnOf e) stack = some (evalProp sigma e :: stack)) := by
  refine ⟨fun _ _ _ _ _ => rfl, fun _ _ _ _ _ => rfl, fun _ _ _ _ _ _ => rfl,
    fun _ _ _ _ _ _ _ => rfl, fun _ _ _ _ _ _ _ => rfl, ?_, fun _ _ _ _ _ _ _ => rfl,
    fun sigma e stack => evalRun_rpnOf sigma e stack⟩
  intro sigma stack l r p b lex
  show some (cppLe l r :: stack) = some ((!l || r) :: stack)
  rw [cppLe_eq]

theorem and_one_beq_testBit (m k : Nat) : ((m >>> k) &&& 1 == 1) = m.testBit k := by
  rw [Nat.testBit_to_div_mod, Nat.shiftRight_eq_div_pow, Nat.and_one_is_mod]
  rcases Nat.mod_two_eq_zero_or_one (m / 2 ^ k) with h | h <;> rw [h] <;> rfl

theorem getD_map_range {α : Type} (f : Nat → α) (n i : Nat) (d : α) (h : i < n) :
    ((List.range n).map f).getD i d = f i := by
  rw [List.getD_eq_getElem?_getD, List.getElem?_map, List.getElem?_range h]
  rfl

theorem truthTable_row (names : List (List Char)) (ts : List Token) (i : Nat)
    (hi : i < 2 ^ names.length) :
    ((truthTable names ts).getD i ([], none)).1 = rowBindings names.length i := by
  unfold truthTable
  rw [getD_map_range _ _ _ _ hi]

/-- C2.  The table driver emits exactly `2 ^ N` rows for `N` distinct
variables (in particular one row when there are none), and in row `i`
the variable at position `j` of the registry iteration order is bound
to `not (bit (N - 1 - j) of i)`; with one variable, row 0 binds `true`
and row 1 binds `false`. -/
theorem table_shape (names : List (List Char)) (ts : List Token) (i j : Nat) :
    (truthTable names ts).length = 2 ^ names.length ∧
    (names = [] → (truthTable names ts).length = 1) ∧
    (i < 2 ^ names.length → j < names.length →
      ((truthTable names ts).getD i ([], none)).1.getD j false
        = !(i.testBit (names.length - 1 - j))) ∧
    (names.length = 1 →
      ((truthTable names ts).getD 0 ([], none)).1 = [true] ∧
      ((truthTable names ts).getD 1 ([], none)).1 = [false]) := by
  refine ⟨by simp [truthTable], fun h => by simp [truthTable, h], fun hi hj => ?_, fun h => ?_⟩
  · rw [truthTable_row _ _ _ hi]
    unfold rowBindings
    rw [getD_map_range _ _ _ _ hj]
    unfold rowBinding
    rw [and_one_beq_testBit]
  · constructor
    · rw [truthTable_row _ _ 0 (by rw [h]; decide), h]
      decide
    · rw [truthTable_row _ _ 1 (by rw [h]; decide), h]
      decide

/-- Witness for C2 at a concrete instance: with two variables, row 1
binds the first variable to `not (bit 1 of 1)` = `true`. -/
theorem table_shape_w :
    ((truthTable [['p'], ['q']] []).getD 1 ([], none)).1.getD 0 false
      = !((1 : Nat).testBit 1) :=
  (table_shape [['p'], ['q']] [] 1 0).2.2.1 (by decide) (by decide)

theorem syRun_append (xs ys : List Token) (st : List Token × List Token) :
    syRun (xs ++ ys) st =
      match syRun xs st with
      | some st2 => syRun ys st2
      | none => none := by
  induction xs generalizing st with
  | nil => rfl
  | cons t xt ih =>
    simp only [List.cons_append, syRun]
    cases syStep st t with
    | none => rfl
    | some st2 => exact ih st2

theorem popWhileHigher_zero (ops : List Token) : popWhileHigher 0 ops = ([], ops) := by
  cases ops with
  | nil => rfl
  | cons t rest => simp [popWhileHigher]

theorem popWhileHigher_app (p : Nat) (xs ys : List Token)
    (hxs : ∀ x ∈ xs, x.precedence < p)
    (hys : ∀ y, ys.head? = some y → p ≤ y.precedence) :
    popWhileHigher p (xs ++ ys) = (xs, ys) := by
  induction xs with
  | nil =>
    cases ys with
    | nil => rfl
    | cons y yt =>
      have hy := hys y rfl
      simp [popWhileHigher, Nat.not_lt.mpr hy]
  | cons x xt ih =>
    have hx := hxs x (List.mem_cons_self x xt)
    simp only [List.cons_append, popWhileHigher, hx, if_pos, List.append_eq]
    rw [ih (fun z hz => hxs z (List.mem_cons_of_mem x hz))]

theorem popUntilLParen_app (xs : List Token) (lp : Token) (rest : List Token)
    (hxs : ∀ x ∈ xs, ¬(x.type = .LPAREN)) (hlp : lp.type = .LPAREN) :
    popUntilLParen (xs ++ lp :: rest) = some (xs, rest) := by
  induction xs with
  | nil => simp [popUntilLParen, hlp]
  | cons x xt ih =>
    have hx := hxs x (List.mem_cons_self x xt)
    simp only [List.cons_append, popUntilLParen, hx, if_neg, if_false, List.append_eq,
      ite_false]
    rw [ih (fun z hz => hxs z (List.mem_cons_of_mem x hz))]

theorem syRun_renderParen_bin (opTok : Token) (l r : PropForm)
    (hop : opTok.isOperator = true)
    (hprec : opTok.precedence < 5)
    (hnotlp : ¬(opTok.type = .LPAREN))
    (ihl : ∀ ops out, syRun (renderParen l) (ops, out) = some (ops, out ++ rpnOf l))
    (ihr : ∀ ops out, syRun (renderParen r) (ops, out) = some (ops, out ++ rpnOf r))
    (ops out : List Token) :
    syRun (lparenT :: (renderParen l ++ opTok :: (renderParen r ++ [rparenT]))) (ops, out)
      = some (ops, out ++ ((rpnOf l ++ rpnOf r) ++ [opTok])) := by
  have s1 : syStep (ops, out) lparenT = some (lparenT :: ops, out) := rfl
  simp only [syRun, s1]
  rw [syRun_append]
  simp only [ihl (lparenT :: ops) out]
  have hpop : popWhileHigher opTok.precedence (lparenT :: ops) = ([], lparenT :: ops) := by
    rw [popWhileHigher]
    rw [if_neg]
    show ¬(lparenT.precedence < opTok.precedence)
    simp only [lparenT]
    omega
  have s2 : syStep (lparenT :: ops, out ++ rpnOf l) opTok
      = some (opTok :: lparenT :: ops, (out ++ rpnOf l) ++ []) := by
    simp only [syStep, hop, if_pos, hpop]
  simp only [syRun, s2]
  rw [syRun_append]
  simp only [ihr (opTok :: lparenT :: ops) ((out ++ rpnOf l) ++ [])]
  have hpop2 : popUntilLParen (opTok :: lparenT :: ops) = some ([opTok], ops) := by
    simp [popUntilLParen, hnotlp, lparenT]
  have s3 : ∀ zs, syStep (opTok :: lparenT :: ops, zs) rparenT = some (ops, zs ++ [opTok]) := by
    intro zs
    simp [syStep, Token.isOperator, rparenT, hpop2]
  simp only [syRun, s3]
  simp [List.append_assoc]

theorem syRun_renderParen (e : PropForm) : ∀ ops out : List Token,
    syRun (renderParen e) (ops, out) = some (ops, out ++ rpnOf e) := by
  induction e with
  | lit b => intro ops out; rfl
  | pvar nm => intro ops out; rfl
  | neg e ih =>
    intro ops out
    have s1 : syStep (ops, out) lparenT = some (lparenT :: ops, out) := rfl
    simp only [renderParen, syRun, s1]
    have s2 : syStep (lparenT :: ops, out) negT
        = some (negT :: lparenT :: ops, out ++ []) := rfl
    simp only [syRun, s2]
    rw [syRun_append]
    simp only [ih (negT :: lparenT :: ops) (out ++ [])]
    have s3 : ∀ zs, syStep (negT :: lparenT :: ops, zs) rparenT = some (ops, zs ++ [negT]) :=
      fun zs => rfl
    simp only [syRun, s3]
    simp [rpnOf, List.append_assoc]
  | conj l r ihl ihr =>
    intro ops out
    exact syRun_renderParen_bin conjT l r rfl (by decide) (by decide) ihl ihr ops out
  | disj l r ihl ihr =>
    intro ops out
    exact syRun_renderParen_bin disjT l r rfl (by decide) (by decide) ihl ihr ops out
  | impl l r ihl ihr =>
    intro ops out
    exact syRun_renderParen_bin implT l r rfl (by decide) (by decide) ihl ihr ops out
  | bicond l r ihl ihr =>
    intro ops out
    exact syRun_renderParen_bin bicondT l r rfl (by decide) (by decide) ihl ihr ops out

theorem syPending_prec (e : PropForm) : noParenOK e = true →
    ∀ x ∈ syPending e, x.precedence ≤ rootPrec e := by
  induction e with
  | lit b => intro _ x hx; simp [syPending] at hx
  | pvar nm => intro _ x hx; simp [syPending] at hx
  | neg e ih =>
    intro h x hx
    simp only [noParenOK, Bool.and_eq_true, beq_iff_eq] at h
    simp only [syPending, List.mem_append, List.mem_singleton] at hx
    rcases hx with hx | hx
    · have h1 := ih h.2 x hx
      have h2 : rootPrec e = 0 := h.1
      show x.precedence ≤ 0
      omega
    · subst hx
      show negT.precedence ≤ 0
      simp [negT]
  | conj l r ihl ihr =>
    intro h x hx
    simp only [noParenOK, Bool.and_eq_true, decide_eq_true_eq] at h
    obtain ⟨⟨⟨hl, hr⟩, okl⟩, okr⟩ := h
    simp only [syPending, List.mem_append, List.mem_singleton] at hx
    rcases hx with hx | hx
    · have h1 := ihr okr x hx
      show x.precedence ≤ 1
      omega
    · subst hx
      show conjT.precedence ≤ 1
      simp [conjT]
  | disj l r ihl ihr =>
    intro h x hx
    simp only [noParenOK, Bool.and_eq_true, decide_eq_true_eq] at h
    obtain ⟨⟨⟨hl, hr⟩, okl⟩, okr⟩ := h
    simp only [syPending, List.mem_append, List.mem_singleton] at hx
    rcases hx with hx | hx
    · have h1 := ihr okr x hx
      show x.precedence ≤ 2
      omega
    · subst hx
      show disjT.precedence ≤ 2
      simp [disjT]
  | impl l r ihl ihr =>
    intro h x hx
    simp only [noParenOK, Bool.and_eq_true, decide_eq_true_eq] at h
    obtain ⟨⟨⟨hl, hr⟩, okl⟩, okr⟩ := h
    simp only [syPending, List.mem_append, List.mem_singleton] at hx
    rcases hx with hx | hx
    · have h1 := ihr okr x hx
      show x.precedence ≤ 3
      omega
    · subst hx
      show implT.precedence ≤ 3
      simp [implT]
  | bicond l r ihl ihr =>
    intro h x hx
    simp only [noParenOK, Bool.and_eq_true, decide_eq_true_eq] at h
    obtain ⟨⟨⟨hl, hr⟩, okl⟩, okr⟩ := h
    simp only [syPending, List.mem_append, List.mem_singleton] at hx
    rcases hx with hx | hx
    · have h1 := ihr okr x hx
      show x.precedence ≤ 4
      omega
    · subst hx
      show bicondT.precedence ≤ 4
      simp [bicondT]

theorem syRun_renderFlat_bin (opTok : Token) (l r : PropForm)
    (hop : opTok.isOperator = true)
    (hlt : rootPrec l < opTok.precedence)
    (hrt : rootPrec r ≤ opTok.precedence)
    (hpl : ∀ x ∈ syPending l, x.precedence ≤ rootPrec l)
    (okl : noParenOK l = true) (okr : noParenOK r = true)
    (ihl : ∀ ops out : List Token, noParenOK l = true →
      (∀ x : Token, ops.head? = some x → rootPrec l ≤ x.precedence) →
      syRun (renderFlat l) (ops, out) = some (syPending l ++ ops, out ++ syEmit l))
    (ihr : ∀ ops out : List Token, noParenOK r = true →
      (∀ x : Token, ops.head? = some x → rootPrec r ≤ x.precedence) →
      syRun (renderFlat r) (ops, out) = some (syPending r ++ ops, out ++ syEmit r))
    (ops out : List Token)
    (hh : ∀ x : Token, ops.head? = some x → opTok.precedence ≤ x.precedence) :
    syRun (renderFlat l ++ opTok :: renderFlat r) (ops, out)
      = some ((syPending r ++ [opTok]) ++ ops, out ++ (syEmit l ++ syPending l ++ syEmit r)) := by
  rw [syRun_append]
  simp only [ihl ops out okl
    (fun x hx => Nat.le_of_lt (Nat.lt_of_lt_of_le hlt (hh x hx)))]
  have hpop : popWhileHigher opTok.precedence (syPending l ++ ops) = (syPending l, ops) := by
    refine popWhileHigher_app _ _ _ (fun x hx => ?_) (fun y hy => hh y hy)
    have h1 := hpl x hx
    omega
  have hstep : syStep (syPending l ++ ops, out ++ syEmit l) opTok
      = some (opTok :: ops, (out ++ syEmit l) ++ syPending l) := by
    simp only [syStep, hop, if_pos, hpop]
  simp only [syRun, hstep]
  have hnext : ∀ x : Token, (opTok :: ops).head? = some x → rootPrec r ≤ x.precedence := by
    intro x hx
    simp only [List.head?_cons, Option.some.injEq] at hx
    subst hx
    exact hrt
  rw [ihr (opTok :: ops) ((out ++ syEmit l) ++ syPending l) okr hnext]
  simp [List.append_assoc]

theorem syRun_renderFlat : ∀ e : PropForm, ∀ ops out : List Token,
    noParenOK e = true →
    (∀ x : Token, ops.head? = some x → rootPrec e ≤ x.precedence) →
    syRun (renderFlat e) (ops, out) = some (syPending e ++ ops, out ++ syEmit e) := by
  intro e
  induction e with
  | lit b => intro ops out _ _; rfl
  | pvar nm => intro ops out _ _; rfl
  | neg e ih =>
    intro ops out h hh
    simp only [noParenOK, Bool.and_eq_true, beq_iff_eq] at h
    have hp : popWhileHigher negT.precedence ops = ([], ops) := popWhileHigher_zero ops
    have hop : negT.isOperator = true := rfl
    have hstep : syStep (ops, out) negT = some (negT :: ops, out ++ []) := by
      simp only [syStep, hop, if_pos, hp]
    simp only [renderFlat, syRun, hstep]
    have hnext : ∀ x : Token, (negT :: ops).head? = some x → rootPrec e ≤ x.precedence := by
      intro x hx
      simp only [List.head?_cons, Option.some.injEq] at hx
      subst hx
      rw [h.1]
      exact Nat.zero_le _
    rw [ih (negT :: ops) (out ++ []) h.2 hnext]
    simp [syPending, syEmit, List.append_assoc]
  | conj l r ihl ihr =>
    intro ops out h hh
    simp only [noParenOK, Bool.and_eq_true, decide_eq_true_eq] at h
    obtain ⟨⟨⟨hl, hr⟩, okl⟩, okr⟩ := h
    simp only [renderFlat, syPending, syEmit]
    exact syRun_renderFlat_bin conjT l r rfl hl hr (syPending_prec l okl) okl okr ihl ihr
      ops out hh
  | disj l r ihl ihr =>
    intro ops out h hh
    simp only [noParenOK, Bool.and_eq_true, decide_eq_true_eq] at h
    obtain ⟨⟨⟨hl, hr⟩, okl⟩, okr⟩ := h
    simp only [renderFlat, syPending, syEmit]
    exact syRun_renderFlat_bin disjT l r rfl hl hr (syPending_prec l okl) okl okr ihl ihr
      ops out hh
  | impl l r ihl ihr =>
    intro ops out h hh
    simp only [noParenOK, Bool.and_eq_true, decide_eq_true_eq] at h
    obtain ⟨⟨⟨hl, hr⟩, okl⟩, okr⟩ := h
    simp only [renderFlat, syPending, syEmit]
    exact syRun_renderFlat_bin implT l r rfl hl hr (syPending_prec l okl) okl okr ihl ihr
      ops out hh
  | bicond l r ihl ihr =>
    intro ops out h hh
    simp only [noParenOK, Bool.and_eq_true, decide_eq_true_eq] at h
    obtain ⟨⟨⟨hl, hr⟩, okl⟩, okr⟩ := h
    simp only [renderFlat, syPending, syEmit]
    exact syRun_renderFlat_bin bicondT l r rfl hl hr (syPending_prec l okl) okl okr ihl ihr
      ops out hh

theorem syEmit_append_syPending (e : PropForm) : syEmit e ++ syPending e = rpnOf e := by
  induction e with
  | lit b => rfl
  | pvar nm => rfl
  | neg e ih =>
    show syEmit e ++ (syPending e ++ [negT]) = rpnOf e ++ [negT]
    rw [← List.append_assoc, ih]
  | conj l r ihl ihr =>
    show (syEmit l ++ syPending l ++ syEmit r) ++ (syPending r ++ [conjT])
        = (rpnOf l ++ rpnOf r) ++ [conjT]
    rw [← ihl, ← ihr]
    simp [List.append_assoc]
  | disj l r ihl ihr =>
    show (syEmit l ++ syPending l ++ syEmit r) ++ (syPending r ++ [disjT])
        = (rpnOf l ++ rpnOf r) ++ [disjT]
    rw [← ihl, ← ihr]
    simp [List.append_assoc]
  | impl l r ihl ihr =>
    show (syEmit l ++ syPending l ++ syEmit r) ++ (syPending r ++ [implT])
        = (rpnOf l ++ rpnOf r) ++ [implT]
    rw [← ihl, ← ihr]
    simp [List.append_assoc]
  | bicond l r ihl ihr =>
    show (syEmit l ++ syPending l ++ syEmit r) ++ (syPending r ++ [bicondT])
        = (rpnOf l ++ rpnOf r) ++ [bicondT]
    rw [← ihl, ← ihr]
    simp [List.append_assoc]

theorem toPostFix_renderParen (e : PropForm) : toPostFix (renderParen e) = some (rpnOf e) := by
  unfold toPostFix
  rw [syRun_renderParen e [] []]
  simp

theorem toPostFix_renderFlat (e : PropForm) (h : noParenOK e = true) :
    toPostFix (renderFlat e) = some (rpnOf e) := by
  unfold toPostFix
  rw [syRun_renderFlat e [] [] h (fun x hx => by simp at hx)]
  simp [syEmit_append_syPending]

/-- C3.  For every expression whose parenthesis-free rendering is
faithful under the precedence order Negation > Conjunction >
Disjunction > Implication > Biconditional, and for every assignment,
converting the fully parenthesised rendering to postfix and evaluating
gives the same result as converting and evaluating the unparenthesised
rendering — and both equal the expression's standard truth value. -/
theorem roundtrip_paren_flat (e : PropForm) (sigma : List Char → Bool)
    (h : noParenOK e = true) :
    convertAndEval sigma (renderParen e) = convertAndEval sigma (renderFlat e) ∧
    convertAndEval sigma (renderParen e) = some (evalProp sigma e) := by
  have h1 : convertAndEval sigma (renderParen e) = some (evalProp sigma e) := by
    simp [convertAndEval, toPostFix_renderParen, evalRow, evalRun_rpnOf]
  have h2 : convertAndEval sigma (renderFlat e) = some (evalProp sigma e) := by
    simp [convertAndEval, toPostFix_renderFlat e h, evalRow, evalRun_rpnOf]
  exact ⟨h1.trans h2.symm, h1⟩

/-- Witness for C3 at a concrete instance: `(!p) -> q` against
`((!(p)) -> (q))` under one assignment. -/
theorem roundtrip_paren_flat_w :
    convertAndEval (fun _ => false) (renderParen (.impl (.neg (.pvar ['p'])) (.pvar ['q'])))
      = convertAndEval (fun _ => false) (renderFlat (.impl (.neg (.pvar ['p'])) (.pvar ['q']))) :=
  (roundtrip_paren_flat (.impl (.neg (.pvar ['p'])) (.pvar ['q'])) (fun _ => false)
    (by decide)).1

theorem mem_insertSorted (nm x : List Char) (l : List (List Char)) :
    x ∈ insertSorted nm l ↔ x = nm ∨ x ∈ l := by
  induction l with
  | nil => simp [insertSorted]
  | cons y ys ih =>
    by_cases h1 : nm = y
    · subst h1
      simp only [insertSorted, if_pos rfl]
      constructor
      · exact Or.inr
      · rintro (rfl | hx)
        · exact List.mem_cons_self _ _
        · exact hx
    · by_cases h2 : nm < y
      · simp only [insertSorted, if_neg h1, if_pos h2, List.mem_cons]
      · simp only [insertSorted, if_neg h1, if_neg h2, List.mem_cons, ih]
        tauto

theorem sorted_insertSorted (nm : List Char) (l : List (List Char))
    (h : List.Pairwise (· < ·) l) : List.Pairwise (· < ·) (insertSorted nm l) := by
  induction l with
  | nil => simp [insertSorted]
  | cons y ys ih =>
    rw [List.pairwise_cons] at h
    obtain ⟨hy, hys⟩ := h
    by_cases h1 : nm = y
    · subst h1
      have hins : insertSorted nm (nm :: ys) = nm :: ys := by
        simp [insertSorted]
      rw [hins, List.pairwise_cons]
      exact ⟨hy, hys⟩
    · by_cases h2 : nm < y
      · simp only [insertSorted, if_neg h1, if_pos h2]
        rw [List.pairwise_cons]
        refine ⟨fun z hz => ?_, ?_⟩
        · rcases List.mem_cons.mp hz with rfl | hz2
          · exact h2
          · exact lt_trans h2 (hy z hz2)
        · rw [List.pairwise_cons]
          exact ⟨hy, hys⟩
      · simp only [insertSorted, if_neg h1, if_neg h2]
        rw [List.pairwise_cons]
        refine ⟨fun z hz => ?_, ih hys⟩
        rcases (mem_insertSorted nm z ys).mp hz with rfl | hz2
        · exact lt_of_le_of_ne (le_of_not_lt h2) (fun hh => h1 hh.symm)
        · exact hy z hz2

theorem foldl_registryInsert_sorted (ts : List Token) :
    ∀ acc, List.Pairwise (· < ·) acc → List.Pairwise (· < ·) (ts.foldl registryInsert acc) := by
  induction ts with
  | nil => exact fun acc h => h
  | cons t ts ih =>
    intro acc h
    rw [List.foldl_cons]
    apply ih
    unfold registryInsert
    cases htt : t.type <;> simp only [htt] <;>
      first
      | exact h
      | exact sorted_insertSorted _ _ h

theorem mem_foldl_registryInsert (ts : List Token) :
    ∀ (acc : List (List Char)) (nm : List Char),
      nm ∈ ts.foldl registryInsert acc ↔ nm ∈ acc ∨ nm ∈ varLexemes ts := by
  induction ts with
  | nil => intro acc nm; simp [varLexemes]
  | cons t ts ih =>
    intro acc nm
    rw [List.foldl_cons, ih]
    unfold registryInsert
    cases htt : t.type <;>
      simp only [htt, varLexemes, List.filter_cons, List.map_cons, beq_iff_eq,
        reduceCtorEq, if_true, if_false, List.mem_cons, mem_insertSorted]
    tauto

theorem mem_specFold (l : List (List Char)) :
    ∀ (acc : List (List Char)) (nm : List Char),
      nm ∈ l.foldl (fun acc nm2 => if acc.contains nm2 then acc else acc ++ [nm2]) acc ↔
        nm ∈ acc ∨ nm ∈ l := by
  induction l with
  | nil => intro acc nm; simp
  | cons x xs ih =>
    intro acc nm
    rw [List.foldl_cons, ih]
    by_cases hc : acc.contains x
    · have hcx : x ∈ acc := by
        simpa using hc
      simp only [if_pos hc, List.mem_cons]
      constructor
      · tauto
      · rintro (h | rfl | h) <;> tauto
    · simp only [if_neg hc, List.mem_append, List.mem_singleton, List.mem_cons]
      tauto

/-- C4 counterexample.  On input `q^p` the registry (a `std::map`
iterated in key order, which is what the header and the rows print)
lists the variables as `p, q`, while their first-occurrence order is
`q, p` — the output column order is not first-occurrence order. -/
theorem header_order_not_first_occurrence :
    registryNames (scanTokens ['q', '^', 'p']) = [['p'], ['q']] ∧
    specFirstOccurrenceOrder (scanTokens ['q', '^', 'p']) = [['q'], ['p']] ∧
    registryNames (scanTokens ['q', '^', 'p'])
      ≠ specFirstOccurrenceOrder (scanTokens ['q', '^', 'p']) :=
  ⟨by decide, by decide, by decide⟩

/-- C4 amended.  The header (and hence each row) lists the distinct
variable names in strictly increasing lexicographic order of their
lexemes — the iteration order of the `std::map` registry — and those
names are exactly the variables occurring in the source, i.e. the same
set (but in general not the same order) as first-occurrence order. -/
theorem header_order_sorted (cs : List Char) :
    List.Pairwise (fun a b : List Char => a < b) (registryNames (scanTokens cs)) ∧
    ∀ nm : List Char,
      nm ∈ registryNames (scanTokens cs) ↔ nm ∈ specFirstOccurrenceOrder (scanTokens cs) := by
  constructor
  · exact foldl_registryInsert_sorted (scanTokens cs) [] List.Pairwise.nil
  · intro nm
    have e1 : (nm ∈ registryNames (scanTokens cs)) ↔
        (nm ∈ ([] : List (List Char)) ∨ nm ∈ varLexemes (scanTokens cs)) :=
      mem_foldl_registryInsert _ _ _
    have e2 : (nm ∈ specFirstOccurrenceOrder (scanTokens cs)) ↔
        (nm ∈ ([] : List (List Char)) ∨ nm ∈ varLexemes (scanTokens cs)) :=
      mem_specFold _ _ _
    rw [e1, e2]

theorem nonParen_true (t : Token) (h1 : ¬(t.type = .LPAREN)) (h2 : ¬(t.type = .RPAREN)) :
    nonParen t = true := by
  simp [nonParen, h1, h2]

theorem operator_prec_le (t : Token) (hwf : wfToken t = true) (hop : t.isOperator = true) :
    t.precedence ≤ 4 := by
  simp only [wfToken, beq_iff_eq] at hwf
  rw [hwf]
  unfold Token.isOperator at hop
  cases htt : t.type <;> rw [htt] at hop <;> simp at hop <;> decide

theorem operator_not_paren (t : Token) (hop : t.isOperator = true) :
    ¬(t.type = .LPAREN) ∧ ¬(t.type = .RPAREN) := by
  unfold Token.isOperator at hop
  cases htt : t.type <;> rw [htt] at hop <;> simp at hop <;> simp [htt]

theorem nonParen_of_prec_lt5 (x : Token) (hwf : wfToken x = true) (h : x.precedence < 5) :
    nonParen x = true := by
  simp only [wfToken, beq_iff_eq] at hwf
  refine nonParen_true x (fun hx => ?_) (fun hx => ?_)
  · rw [hx] at hwf
    simp [canonicalPrec] at hwf
    omega
  · rw [hx] at hwf
    simp [canonicalPrec] at hwf
    omega

theorem balAux_cons_other (t : Token) (ts : List Token) (n : Nat)
    (h1 : ¬(t.type = .LPAREN)) (h2 : ¬(t.type = .RPAREN)) :
    balAux (t :: ts) n = balAux ts n := by
  cases htt : t.type
  case LPAREN => exact absurd htt h1
  case RPAREN => exact absurd htt h2
  all_goals simp only [balAux, htt]

theorem not_rp_of_all (ops : List Token)
    (h : ops.all (fun t => !(t.type == .RPAREN)) = true) :
    ∀ x ∈ ops, ¬(x.type = .RPAREN) := by
  rw [List.all_eq_true] at h
  intro x hx
  have hh := h x hx
  simpa using hh

theorem popWhileHigher_split (p : Nat) : ∀ ops em rest : List Token,
    popWhileHigher p ops = (em, rest) →
    ops = em ++ rest ∧ ∀ x ∈ em, x.precedence < p := by
  intro ops
  induction ops with
  | nil =>
    intro em rest h
    simp only [popWhileHigher, Prod.mk.injEq] at h
    obtain ⟨h1, h2⟩ := h
    subst h1
    subst h2
    exact ⟨rfl, fun x hx => absurd hx (List.not_mem_nil x)⟩
  | cons t ts ih =>
    intro em rest h
    by_cases hc : t.precedence < p
    · simp only [popWhileHigher] at h
      rw [if_pos hc] at h
      have h1 : t :: (popWhileHigher p ts).1 = em := congrArg Prod.fst h
      have h2 : (popWhileHigher p ts).2 = rest := congrArg Prod.snd h
      obtain ⟨hsplit, hmem⟩ := ih (popWhileHigher p ts).1 (popWhileHigher p ts).2 rfl
      subst h1
      subst h2
      refine ⟨?_, fun x hx => ?_⟩
      · rw [List.cons_append, ← hsplit]
      · rcases List.mem_cons.mp hx with rfl | hx2
        · exact hc
        · exact hmem x hx2
    · simp only [popWhileHigher] at h
      rw [if_neg hc] at h
      have h1 : ([] : List Token) = em := congrArg Prod.fst h
      have h2 : t :: ts = rest := congrArg Prod.snd h
      subst h1
      subst h2
      exact ⟨rfl, fun x hx => absurd hx (List.not_mem_nil x)⟩

theorem exists_lp_split : ∀ ops : List Token, ops.countP isLP ≠ 0 →
    ∃ xs lp rest, ops = xs ++ lp :: rest ∧ lp.type = .LPAREN ∧
      ∀ x ∈ xs, ¬(x.type = .LPAREN) := by
  intro ops
  induction ops with
  | nil => intro h; simp [List.countP_nil] at h
  | cons t ts ih =>
    intro h
    by_cases ht : t.type = .LPAREN
    · exact ⟨[], t, ts, rfl, ht, fun x hx => absurd hx (List.not_mem_nil x)⟩
    · have htf : isLP t = false := by simp [isLP, ht]
      have hc : ts.countP isLP ≠ 0 := by
        rw [List.countP_cons, htf] at h
        simpa using h
      obtain ⟨xs, lp, rest, heq, hlp, hxs⟩ := ih hc
      refine ⟨t :: xs, lp, rest, by rw [heq]; rfl, hlp, fun x hx => ?_⟩
      rcases List.mem_cons.mp hx with rfl | hx2
      · exact ht
      · exact hxs x hx2

theorem syRun_balanced : ∀ ts ops out : List Token, ∀ n : Nat,
    ts.all wfToken = true →
    ops.all wfToken = true →
    balAux ts n = true →
    ops.countP isLP = n →
    ops.all (fun t => !(t.type == .RPAREN)) = true →
    out.all nonParen = true →
    ∃ ops2 out2, syRun ts (ops, out) = some (ops2, out2) ∧
      ops2.all nonParen = true ∧ out2.all nonParen = true ∧
      ((out2 : Multiset Token) + (ops2 : Multiset Token)
        = (out : Multiset Token) + ((ops.filter nonParen : List Token) : Multiset Token)
          + ((ts.filter nonParen : List Token) : Multiset Token)) := by
  intro ts
  induction ts with
  | nil =>
    intro ops out n _ hwfops hbal hcount hnorp hout
    have hn : n = 0 := by simpa [balAux] using hbal
    subst hn
    have hnolp := List.countP_eq_zero.mp hcount
    have hops : ∀ x ∈ ops, nonParen x = true := by
      intro x hx
      refine nonParen_true x (fun hh => ?_) (not_rp_of_all ops hnorp x hx)
      exact hnolp x hx (by simp [isLP, hh])
    have hfilter : ops.filter nonParen = ops :=
      List.filter_eq_self.mpr hops
    refine ⟨ops, out, rfl, List.all_eq_true.mpr hops, hout, ?_⟩
    simp [hfilter]
  | cons t ts ih =>
    intro ops out n hwfts hwfops hbal hcount hnorp hout
    have hwft : wfToken t = true :=
      List.all_eq_true.mp hwfts t (List.mem_cons_self _ _)
    have hwfts2 : ts.all wfToken = true := by
      rw [List.all_eq_true] at hwfts ⊢
      exact fun x hx => hwfts x (List.mem_cons_of_mem t hx)
    by_cases hlp : t.type = .LPAREN
    · -- LPAREN: push
      have hnotop : t.isOperator = false := by
        unfold Token.isOperator
        rw [hlp]
      have hstep : syStep (ops, out) t = some (t :: ops, out) := by
        simp [syStep, hnotop, hlp]
      have hbal2 : balAux ts (n + 1) = true := by
        simpa only [balAux, hlp] using hbal
      have hcount2 : (t :: ops).countP isLP = n + 1 := by
        rw [List.countP_cons, hcount]
        simp [isLP, hlp]
      have hwfops2 : (t :: ops).all wfToken = true := by
        simp [hwft, hwfops]
      have hnorp2 : (t :: ops).all (fun t => !(t.type == .RPAREN)) = true := by
        simp [hlp, hnorp]
      obtain ⟨ops2, out2, hrun, ha, hb, hm⟩ :=
        ih (t :: ops) out (n + 1) hwfts2 hwfops2 hbal2 hcount2 hnorp2 hout
      refine ⟨ops2, out2, by simp only [syRun, hstep]; exact hrun, ha, hb, ?_⟩
      rw [hm]
      have h1 : nonParen t = false := by simp [nonParen, hlp]
      simp [List.filter_cons, h1]
    · by_cases hrp : t.type = .RPAREN
      · -- RPAREN: pop to the matching LPAREN
        have hne : n ≠ 0 ∧ balAux ts (n - 1) = true := by
          simp only [balAux, hrp, Bool.and_eq_true, bne_iff_ne, ne_eq] at hbal
          exact hbal
        have hcpos : ops.countP isLP ≠ 0 := by rw [hcount]; exact hne.1
        obtain ⟨xs, lp, rest, heq, hlpt, hxs⟩ := exists_lp_split ops hcpos
        have hpop : popUntilLParen ops = some (xs, rest) := by
          rw [heq]
          exact popUntilLParen_app xs lp rest hxs hlpt
        have hnotop : t.isOperator = false := by
          unfold Token.isOperator
          rw [hrp]
        have hstep : syStep (ops, out) t = some (rest, out ++ xs) := by
          simp [syStep, hnotop, hlp, hrp, hpop]
        subst heq
        rw [List.all_append, List.all_cons, Bool.and_eq_true, Bool.and_eq_true] at hwfops hnorp
        have hXall : ∀ x ∈ xs, nonParen x = true := by
          intro x hx
          refine nonParen_true x (hxs x hx) ?_
          have := List.all_eq_true.mp hnorp.1 x hx
          simpa using this
        have hcount2 : rest.countP isLP = n - 1 := by
          have hxs0 : xs.countP isLP = 0 :=
            List.countP_eq_zero.mpr (fun x hx => by simp [isLP, hxs x hx])
          have hlp1 : isLP lp = true := by simp [isLP, hlpt]
          rw [List.countP_append, List.countP_cons, hxs0, hlp1] at hcount
          simp at hcount
          omega
        have hout2 : (out ++ xs).all nonParen = true := by
          rw [List.all_append, Bool.and_eq_true]
          exact ⟨hout, List.all_eq_true.mpr hXall⟩
        obtain ⟨ops2, out2, hrun, ha, hb, hm⟩ :=
          ih rest (out ++ xs) (n - 1) hwfts2 hwfops.2.2 hne.2 hcount2 hnorp.2.2 hout2
        refine ⟨ops2, out2, by simp only [syRun, hstep]; exact hrun, ha, hb, ?_⟩
        rw [hm]
        have hfx : xs.filter nonParen = xs := List.filter_eq_self.mpr hXall
        have hlpf : nonParen lp = false := by simp [nonParen, hlpt]
        have htf : nonParen t = false := by simp [nonParen, hrp]
        simp [List.filter_append, List.filter_cons, hlpf, htf, hfx]
      · by_cases hop : t.isOperator = true
        · -- operator: pop all strictly tighter, then push
          rcases hpw : popWhileHigher t.precedence ops with ⟨em, rest⟩
          obtain ⟨hsplit, hem⟩ := popWhileHigher_split t.precedence ops em rest hpw
          have hstep : syStep (ops, out) t = some (t :: rest, out ++ em) := by
            simp [syStep, hop, hpw]
          have hprec4 : t.precedence ≤ 4 := operator_prec_le t hwft hop
          have htnp : nonParen t = true :=
            nonParen_true t (operator_not_paren t hop).1 (operator_not_paren t hop).2
          subst hsplit
          rw [List.all_append, Bool.and_eq_true] at hwfops hnorp
          have hemnp : ∀ x ∈ em, nonParen x = true := by
            intro x hx
            refine nonParen_of_prec_lt5 x (List.all_eq_true.mp hwfops.1 x hx) ?_
            have := hem x hx
            omega
          have hbal2 : balAux ts n = true := by
            rw [balAux_cons_other t ts n hlp hrp] at hbal
            exact hbal
          have hcount2 : (t :: rest).countP isLP = n := by
            have hem0 : em.countP isLP = 0 :=
              List.countP_eq_zero.mpr (fun x hx => by
                have := hemnp x hx
                simp only [nonParen, Bool.and_eq_true, Bool.not_eq_true', beq_eq_false_iff_ne,
                  ne_eq] at this
                simp [isLP, this.1])
            have htlp : isLP t = false := by simp [isLP, hlp]
            rw [List.countP_append, hem0] at hcount
            rw [List.countP_cons, htlp]
            simp only [Nat.zero_add] at hcount
            simp
            omega
          have hwfops2 : (t :: rest).all wfToken = true := by
            simp [hwft, hwfops.2]
          have hnorp2 : (t :: rest).all (fun t => !(t.type == .RPAREN)) = true := by
            simp only [List.all_cons, Bool.and_eq_true]
            exact ⟨by simp [hrp], hnorp.2⟩
          have hout2 : (out ++ em).all nonParen = true := by
            rw [List.all_append, Bool.and_eq_true]
            exact ⟨hout, List.all_eq_true.mpr hemnp⟩
          obtain ⟨ops2, out2, hrun, ha, hb, hm⟩ :=
            ih (t :: rest) (out ++ em) n hwfts2 hwfops2 hbal2 hcount2 hnorp2 hout2
          refine ⟨ops2, out2, by simp only [syRun, hstep]; exact hrun, ha, hb, ?_⟩
          rw [hm]
          have hfem : em.filter nonParen = em := List.filter_eq_self.mpr hemnp
          simp [List.filter_append, List.filter_cons, htnp, hfem]
          exact List.Perm.append_left _ (List.Perm.append_left _ List.perm_middle.symm)
        · -- operand: emit directly
          have hopf : t.isOperator = false := by
            cases hopv : t.isOperator
            · rfl
            · exact absurd hopv hop
          have hstep : syStep (ops, out) t = some (ops, out ++ [t]) := by
            simp [syStep, hopf, hlp, hrp]
          have htnp : nonParen t = true := nonParen_true t hlp hrp
          have hbal2 : balAux ts n = true := by
            rw [balAux_cons_other t ts n hlp hrp] at hbal
            exact hbal
          have hout2 : (out ++ [t]).all nonParen = true := by
            rw [List.all_append, Bool.and_eq_true]
            exact ⟨hout, by simp [htnp]⟩
          obtain ⟨ops2, out2, hrun, ha, hb, hm⟩ :=
            ih ops (out ++ [t]) n hwfts2 hwfops hbal2 hcount hnorp hout2
          refine ⟨ops2, out2, by simp only [syRun, hstep]; exact hrun, ha, hb, ?_⟩
          rw [hm]
          simp [List.filter_cons, htnp]
          exact List.Perm.append_left _ List.perm_middle.symm

/-- C6 counterexample.  The token sequence of input `(p` is accepted by
the validator (shown for the concrete out-of-range junk value
`defaultToken`; the accepting disjunct does not involve the junk), yet
its postfix form is `p (` — the final stack flush pushes the unmatched
`LPAREN` into the output, so the converted sequence contains a
parenthesis token. -/
theorem converter_keeps_unmatched_lparen :
    validateTokenString defaultToken defaultToken (scanTokens ['(', 'p']) = true ∧
    toPostFix (scanTokens ['(', 'p']) = some [pvarT ['p'], lparenT] ∧
    List.any ((toPostFix (scanTokens ['(', 'p'])).getD []) isLP = true :=
  ⟨by decide, by decide, by decide⟩

/-- C6 amended.  For every token sequence of scanned (hence
precedence-coherent) tokens whose parentheses are balanced — every
prefix opens at least as many parentheses as it closes and the totals
agree — conversion succeeds, the postfix output contains no parenthesis
token, and it is the same multiset as the non-parenthesis tokens of the
input.  (Validator acceptance alone does not guarantee this: see the
counterexample, which the validator accepts.) -/
theorem toPostFix_balanced (ts : List Token)
    (hwf : ts.all wfToken = true) (hbal : balanced ts = true) :
    ∃ out, toPostFix ts = some out ∧ out.all nonParen = true ∧
      (out : Multiset Token) = ((ts.filter nonParen : List Token) : Multiset Token) := by
  obtain ⟨ops2, out2, hrun, ha, hb, hm⟩ :=
    syRun_balanced ts [] [] 0 hwf rfl hbal rfl rfl rfl
  refine ⟨out2 ++ ops2, ?_, ?_, ?_⟩
  · unfold toPostFix
    rw [hrun]
  · rw [List.all_append, Bool.and_eq_true]
    exact ⟨hb, ha⟩
  · rw [← Multiset.coe_add, hm]
    simp

/-- Witness for C6 at a concrete instance: the balanced input
`(p^q)`. -/
theorem toPostFix_balanced_w :
    ∃ out, toPostFix (scanTokens ['(', 'p', '^', 'q', ')']) = some out ∧
      out.all nonParen = true ∧
      (out : Multiset Token)
        = (((scanTokens ['(', 'p', '^', 'q', ')']).filter nonParen : List Token) :
            Multiset Token) :=
  toPostFix_balanced (scanTokens ['(', 'p', '^', 'q', ')']) (by decide) (by decide)

/-- C5 (code bug).  The validator accepts the empty sub-expression
`()` — both tokens fall into the unchecked `default` case, for every
possible value of the two out-of-range reads — but its postfix form is
the empty sequence, whose evaluation leaves the operand stack empty:
the final `operands.top()` pops an empty stack and no value remains, so
validator acceptance does not ensure the never-underflow/singleton
invariant.  The table driver's single row therefore has no well-defined
result. -/
theorem validator_accepts_empty_parens (jlo jhi : Token) :
    validateTokenString jlo jhi (scanTokens ['(', ')']) = true ∧
    toPostFix (scanTokens ['(', ')']) = some [] ∧
    evalRow (fun _ => false) [] = none ∧
    truthTable (registryNames (scanTokens ['(', ')'])) (scanTokens ['(', ')'])
      = [([], none)] :=
  ⟨rfl, by decide, by decide, by decide⟩

/-- C7 (code bug).  The spec's scenario says the malformed input `p ^`
is rejected with no rows, but the validator accepts it for every
possible value of the out-of-range read its last iteration performs
(the binary-operator rule is a disjunction and the preceding operand
already satisfies it), and the driver then emits `2^1 = 2` rows whose
results are undefined (the evaluation pops an empty stack). -/
theorem validator_accepts_p_and (jlo jhi : Token) :
    validateTokenString jlo jhi (scanTokens ['p', ' ', '^']) = true ∧
    (truthTable (registryNames (scanTokens ['p', ' ', '^'])) (scanTokens ['p', ' ', '^'])).length
      = 2 ∧
    (truthTable (registryNames (scanTokens ['p', ' ', '^'])) (scanTokens ['p', ' ', '^'])).map
      Prod.snd = [none, none] := by
  refine ⟨?_, by decide, by decide⟩
  show (List.range 2).all (validTokenAt jlo jhi (scanTokens ['p', ' ', '^'])) = true
  have h0 : validTokenAt jlo jhi (scanTokens ['p', ' ', '^']) 0 = true := rfl
  have h1 : validTokenAt jlo jhi (scanTokens ['p', ' ', '^']) 1 = true := by
    show (jhi.type == .TRUTH_VALUE || jhi.type == .PROPOSITION ||
      jhi.type == .LPAREN || jhi.type == .NEGATION ||
      (pvarT ['p']).type == .TRUTH_VALUE || (pvarT ['p']).type == .PROPOSITION ||
      (pvarT ['p']).type == .RPAREN) = true
    simp [pvarT]
  simp [List.all_eq_true, List.mem_range]
  intro i hi
  interval_cases i
  · exact h0
  · exact h1

/-- C8 (code bug).  The validator reads out of range even on
well-formed input: on `p^q` the last iteration (an operand) reads
`tokens[3]` of a 3-token sequence before any short-circuit can stop it,
and on `pq` the first iteration reads `tokens[-1]`.  `checkedValidate`,
which mirrors the C++ evaluation order and returns `none` on the first
out-of-range access, returns `none` on both. -/
theorem validator_reads_out_of_range :
    checkedValidate (scanTokens ['p', '^', 'q']) = none ∧
    checkedValidate (scanTokens ['p', 'q']) = none :=
  ⟨by decide, by decide⟩

theorem scanTokens_space (rest : List Char) : scanTokens (' ' :: rest) = scanTokens rest := by
  rw [scanTokens.eq_def]
  dsimp only
  rw [if_pos (rfl : ' ' = ' ')]

theorem scanTokens_impl (rest : List Char) :
    scanTokens ('-' :: '>' :: rest)
      = ⟨.IMPLICATION, 3, false, ['-', '>']⟩ :: scanTokens rest := by
  rw [scanTokens.eq_def]
  dsimp only
  rw [if_neg (by decide : ¬('-' = ' ')), if_neg (by decide : ¬('-' = '0' ∨ '-' = 'F')),
    if_neg (by decide : ¬('-' = '1' ∨ '-' = 'T')), if_neg (by decide : ¬('-' = '(')),
    if_neg (by decide : ¬('-' = ')')), if_neg (by decide : ¬('-' = '^' ∨ '-' = '*')),
    if_neg (by decide : ¬('-' = 'v' ∨ '-' = '+')),
    if_neg (by decide : ¬('-' = '!' ∨ '-' = '~')), if_pos (rfl : '-' = '-')]
  rw [if_pos (rfl : '>' = '>')]

theorem scanTokens_dash_swallow (c : Char) (rest : List Char) (hc : ¬(c = '>')) :
    scanTokens ('-' :: c :: rest) = scanTokens rest := by
  rw [scanTokens.eq_def]
  dsimp only
  rw [if_neg (by decide : ¬('-' = ' ')), if_neg (by decide : ¬('-' = '0' ∨ '-' = 'F')),
    if_neg (by decide : ¬('-' = '1' ∨ '-' = 'T')), if_neg (by decide : ¬('-' = '(')),
    if_neg (by decide : ¬('-' = ')')), if_neg (by decide : ¬('-' = '^' ∨ '-' = '*')),
    if_neg (by decide : ¬('-' = 'v' ∨ '-' = '+')),
    if_neg (by decide : ¬('-' = '!' ∨ '-' = '~')), if_pos (rfl : '-' = '-')]
  rw [if_neg hc]

theorem scanTokens_bicond (rest : List Char) :
    scanTokens ('<' :: '-' :: '>' :: rest)
      = ⟨.BICONDITIONAL, 4, false, ['<', '-', '>']⟩ :: scanTokens rest := by
  rw [scanTokens.eq_def]
  dsimp only
  rw [if_neg (by decide : ¬('<' = ' ')), if_neg (by decide : ¬('<' = '0' ∨ '<' = 'F')),
    if_neg (by decide : ¬('<' = '1' ∨ '<' = 'T')), if_neg (by decide : ¬('<' = '(')),
    if_neg (by decide : ¬('<' = ')')), if_neg (by decide : ¬('<' = '^' ∨ '<' = '*')),
    if_neg (by decide : ¬('<' = 'v' ∨ '<' = '+')),
    if_neg (by decide : ¬('<' = '!' ∨ '<' = '~')), if_neg (by decide : ¬('<' = '-')),
    if_pos (rfl : '<' = '<')]
  rw [if_pos (rfl : '-' = '-'), if_pos (rfl : '>' = '>')]

theorem scanTokens_lt_dash_swallow (c : Char) (rest : List Char) (hc : ¬(c = '>')) :
    scanTokens ('<' :: '-' :: c :: rest) = scanTokens rest := by
  rw [scanTokens.eq_def]
  dsimp only
  rw [if_neg (by decide : ¬('<' = ' ')), if_neg (by decide : ¬('<' = '0' ∨ '<' = 'F')),
    if_neg (by decide : ¬('<' = '1' ∨ '<' = 'T')), if_neg (by decide : ¬('<' = '(')),
    if_neg (by decide : ¬('<' = ')')), if_neg (by decide : ¬('<' = '^' ∨ '<' = '*')),
    if_neg (by decide : ¬('<' = 'v' ∨ '<' = '+')),
    if_neg (by decide : ¬('<' = '!' ∨ '<' = '~')), if_neg (by decide : ¬('<' = '-')),
    if_pos (rfl : '<' = '<')]
  rw [if_pos (rfl : '-' = '-')]
  rw [if_neg hc]

theorem scanTokens_lt_swallow (c : Char) (rest : List Char) (hc : ¬(c = '-')) :
    scanTokens ('<' :: c :: rest) = scanTokens rest := by
  rw [scanTokens.eq_def]
  dsimp only
  rw [if_neg (by decide : ¬('<' = ' ')), if_neg (by decide : ¬('<' = '0' ∨ '<' = 'F')),
    if_neg (by decide : ¬('<' = '1' ∨ '<' = 'T')), if_neg (by decide : ¬('<' = '(')),
    if_neg (by decide : ¬('<' = ')')), if_neg (by decide : ¬('<' = '^' ∨ '<' = '*')),
    if_neg (by decide : ¬('<' = 'v' ∨ '<' = '+')),
    if_neg (by decide : ¬('<' = '!' ∨ '<' = '~')), if_neg (by decide : ¬('<' = '-')),
    if_pos (rfl : '<' = '<')]
  rw [if_neg hc]

theorem scanTokens_default (c : Char) (rest : List Char) (hc : ¬(c ∈ opChars)) :
    scanTokens (c :: rest) = ⟨.PROPOSITION, 5, false, [c]⟩ :: scanTokens rest := by
  simp only [opChars, List.mem_cons, List.not_mem_nil, or_false, not_or] at hc
  obtain ⟨h0, h1, hF, hT, hlp, hrp, hcj, hst, hv, hpl, hex, htl, hdash, hlt, hsp⟩ := hc
  rw [scanTokens.eq_def]
  dsimp only
  rw [if_neg hsp, if_neg (not_or.mpr ⟨h0, hF⟩), if_neg (not_or.mpr ⟨h1, hT⟩),
    if_neg hlp, if_neg hrp, if_neg (not_or.mpr ⟨hcj, hst⟩), if_neg (not_or.mpr ⟨hv, hpl⟩),
    if_neg (not_or.mpr ⟨hex, htl⟩), if_neg hdash, if_neg hlt]

/-- C9 counterexample.  On input `-p` the scanner emits no token at
all: the failed `->` match also consumes the following character
(`matchNext` advances unconditionally), so `p` never becomes a
Variable token and the registry stays empty — contradicting the claim
that every unrecognized single character becomes a one-character
Variable.  Also a tab character is not skipped as whitespace: only the
space character is; a tab becomes a variable. -/
theorem scanner_swallows_after_dash :
    scanTokens ['-', 'p'] = [] ∧
    registryNames (scanTokens ['-', 'p']) = [] ∧
    scanTokens ['\t'] = [⟨.PROPOSITION, 5, false, ['\t']⟩] :=
  ⟨by decide, by decide, by decide⟩

/-- C9 amended.  The scanner is total (these equations cover every scan
step, so it never rejects): a space character is skipped and produces
no token (other whitespace such as tab falls to the variable case); a
`-` followed by `>` produces an Implication token; a `-` not followed
by `>` produces no token and also consumes the following character if
one exists; `<-` followed by `>` produces a Biconditional token, and an
incomplete `<` or `<-` match silently consumes up to three characters
producing no token; any other character outside the recognized set
becomes a one-character Variable token under that character. -/
theorem scanner_step_behavior :
    (∀ rest : List Char, scanTokens (' ' :: rest) = scanTokens rest) ∧
    (∀ rest : List Char, scanTokens ('-' :: '>' :: rest)
        = ⟨.IMPLICATION, 3, false, ['-', '>']⟩ :: scanTokens rest) ∧
    (∀ (c : Char) (rest : List Char), ¬(c = '>') →
      scanTokens ('-' :: c :: rest) = scanTokens rest) ∧
    scanTokens ['-'] = [] ∧
    (∀ rest : List Char, scanTokens ('<' :: '-' :: '>' :: rest)
        = ⟨.BICONDITIONAL, 4, false, ['<', '-', '>']⟩ :: scanTokens rest) ∧
    (∀ (c : Char) (rest : List Char), ¬(c = '>') →
      scanTokens ('<' :: '-' :: c :: rest) = scanTokens rest) ∧
    (∀ (c : Char) (rest : List Char), ¬(c = '-') →
      scanTokens ('<' :: c :: rest) = scanTokens rest) ∧
    scanTokens ['<'] = [] ∧
    scanTokens ['<', '-'] = [] ∧
    (∀ (c : Char) (rest : List Char), ¬(c ∈ opChars) →
      scanTokens (c :: rest) = ⟨.PROPOSITION, 5, false, [c]⟩ :: scanTokens rest) :=
  ⟨scanTokens_space, scanTokens_impl, scanTokens_dash_swallow, by decide, scanTokens_bicond,
    scanTokens_lt_dash_swallow, scanTokens_lt_swallow, by decide, by decide,
    scanTokens_default⟩

/-- Witness for C9 at a concrete instance: `-p` followed by `q` drops
both the dash and the `p`. -/
theorem scanner_step_behavior_w : scanTokens ['-', 'p', 'q'] = scanTokens ['q'] :=
  scanner_step_behavior.2.2.1 'p' ['q'] (by decide)

theorem scanTokens_tv_false (c : Char) (rest : List Char) (hc : c = '0' ∨ c = 'F') :
    scanTokens (c :: rest) = ⟨.TRUTH_VALUE, 5, false, [c]⟩ :: scanTokens rest := by
  have hs : ¬(c = ' ') := by rcases hc with rfl | rfl <;> decide
  rw [scanTokens.eq_def]
  dsimp only
  rw [if_neg hs, if_pos hc]

theorem scanTokens_tv_true (c : Char) (rest : List Char) (hc : c = '1' ∨ c = 'T') :
    scanTokens (c :: rest) = ⟨.TRUTH_VALUE, 5, true, [c]⟩ :: scanTokens rest := by
  have hs : ¬(c = ' ') := by rcases hc with rfl | rfl <;> decide
  have h1 : ¬(c = '0' ∨ c = 'F') := by rcases hc with rfl | rfl <;> decide
  rw [scanTokens.eq_def]
  dsimp only
  rw [if_neg hs, if_neg h1, if_pos hc]

theorem scanTokens_lparen (rest : List Char) :
    scanTokens ('(' :: rest) = ⟨.LPAREN, 5, false, ['(']⟩ :: scanTokens rest := by
  rw [scanTokens.eq_def]
  dsimp only
  rw [if_neg (by decide : ¬('(' = ' ')), if_neg (by decide : ¬('(' = '0' ∨ '(' = 'F')),
    if_neg (by decide : ¬('(' = '1' ∨ '(' = 'T')), if_pos (rfl : '(' = '(')]

theorem scanTokens_rparen (rest : List Char) :
    scanTokens (')' :: rest) = ⟨.RPAREN, 5, false, [')']⟩ :: scanTokens rest := by
  rw [scanTokens.eq_def]
  dsimp only
  rw [if_neg (by decide : ¬(')' = ' ')), if_neg (by decide : ¬(')' = '0' ∨ ')' = 'F')),
    if_neg (by decide : ¬(')' = '1' ∨ ')' = 'T')), if_neg (by decide : ¬(')' = '(')),
    if_pos (rfl : ')' = ')')]

theorem scanTokens_conj (c : Char) (rest : List Char) (hc : c = '^' ∨ c = '*') :
    scanTokens (c :: rest) = ⟨.CONJUNCTION, 1, false, [c]⟩ :: scanTokens rest := by
  have hs : ¬(c = ' ') := by rcases hc with rfl | rfl <;> decide
  have h1 : ¬(c = '0' ∨ c = 'F') := by rcases hc with rfl | rfl <;> decide
  have h2 : ¬(c = '1' ∨ c = 'T') := by rcases hc with rfl | rfl <;> decide
  have h3 : ¬(c = '(') := by rcases hc with rfl | rfl <;> decide
  have h4 : ¬(c = ')') := by rcases hc with rfl | rfl <;> decide
  rw [scanTokens.eq_def]
  dsimp only
  rw [if_neg hs, if_neg h1, if_neg h2, if_neg h3, if_neg h4, if_pos hc]

theorem scanTokens_disj (c : Char) (rest : List Char) (hc : c = 'v' ∨ c = '+') :
    scanTokens (c :: rest) = ⟨.DISJUNCTION, 2, false, [c]⟩ :: scanTokens rest := by
  have hs : ¬(c = ' ') := by rcases hc with rfl | rfl <;> decide
  have h1 : ¬(c = '0' ∨ c = 'F') := by rcases hc with rfl | rfl <;> decide
  have h2 : ¬(c = '1' ∨ c = 'T') := by rcases hc with rfl | rfl <;> decide
  have h3 : ¬(c = '(') := by rcases hc with rfl | rfl <;> decide
  have h4 : ¬(c = ')') := by rcases hc with rfl | rfl <;> decide
  have h5 : ¬(c = '^' ∨ c = '*') := by rcases hc with rfl | rfl <;> decide
  rw [scanTokens.eq_def]
  dsimp only
  rw [if_neg hs, if_neg h1, if_neg h2, if_neg h3, if_neg h4, if_neg h5, if_pos hc]

theorem scanTokens_neg (c : Char) (rest : List Char) (hc : c = '!' ∨ c = '~') :
    scanTokens (c :: rest) = ⟨.NEGATION, 0, false, [c]⟩ :: scanTokens rest := by
  have hs : ¬(c = ' ') := by rcases hc with rfl | rfl <;> decide
  have h1 : ¬(c = '0' ∨ c = 'F') := by rcases hc with rfl | rfl <;> decide
  have h2 : ¬(c = '1' ∨ c = 'T') := by rcases hc with rfl | rfl <;> decide
  have h3 : ¬(c = '(') := by rcases hc with rfl | rfl <;> decide
  have h4 : ¬(c = ')') := by rcases hc with rfl | rfl <;> decide
  have h5 : ¬(c = '^' ∨ c = '*') := by rcases hc with rfl | rfl <;> decide
  have h6 : ¬(c = 'v' ∨ c = '+') := by rcases hc with rfl | rfl <;> decide
  rw [scanTokens.eq_def]
  dsimp only
  rw [if_neg hs, if_neg h1, if_neg h2, if_neg h3, if_neg h4, if_neg h5, if_neg h6, if_pos hc]

theorem varLexemes_cons_nonProp (t : Token) (ts : List Token)
    (ht : ¬(t.type = .PROPOSITION)) : varLexemes (t :: ts) = varLexemes ts := by
  simp [varLexemes, List.filter_cons, ht]

theorem varLexemes_cons_prop (t : Token) (ts : List Token)
    (ht : t.type = .PROPOSITION) : varLexemes (t :: ts) = t.lexeme :: varLexemes ts := by
  simp [varLexemes, List.filter_cons, ht]

theorem varLexemes_scan : ∀ (n : Nat) (cs : List Char), cs.length ≤ n →
    ∀ lex ∈ varLexemes (scanTokens cs), ∃ c2 : Char, lex = [c2] ∧ ¬(c2 ∈ opChars) := by
  intro n
  induction n with
  | zero =>
    intro cs hcs lex hlex
    have h0 : cs = [] := List.eq_nil_of_length_eq_zero (Nat.le_zero.mp hcs)
    subst h0
    simp [scanTokens, varLexemes] at hlex
  | succ n ih =>
    intro cs hcs lex hlex
    cases cs with
    | nil => simp [scanTokens, varLexemes] at hlex
    | cons c rest =>
      have hlen : rest.length ≤ n := Nat.le_of_succ_le_succ hcs
      by_cases hsp : c = ' '
      · subst hsp
        rw [scanTokens_space] at hlex
        exact ih rest hlen lex hlex
      · by_cases h0F : c = '0' ∨ c = 'F'
        · rw [scanTokens_tv_false c rest h0F,
            varLexemes_cons_nonProp _ _ (by simp)] at hlex
          exact ih rest hlen lex hlex
        · by_cases h1T : c = '1' ∨ c = 'T'
          · rw [scanTokens_tv_true c rest h1T,
              varLexemes_cons_nonProp _ _ (by simp)] at hlex
            exact ih rest hlen lex hlex
          · by_cases hlp : c = '('
            · subst hlp
              rw [scanTokens_lparen, varLexemes_cons_nonProp _ _ (by simp)] at hlex
              exact ih rest hlen lex hlex
            · by_cases hrp : c = ')'
              · subst hrp
                rw [scanTokens_rparen, varLexemes_cons_nonProp _ _ (by simp)] at hlex
                exact ih rest hlen lex hlex
              · by_cases hcj : c = '^' ∨ c = '*'
                · rw [scanTokens_conj c rest hcj,
                    varLexemes_cons_nonProp _ _ (by simp)] at hlex
                  exact ih rest hlen lex hlex
                · by_cases hdj : c = 'v' ∨ c = '+'
                  · rw [scanTokens_disj c rest hdj,
                      varLexemes_cons_nonProp _ _ (by simp)] at hlex
                    exact ih rest hlen lex hlex
                  · by_cases hng : c = '!' ∨ c = '~'
                    · rw [scanTokens_neg c rest hng,
                        varLexemes_cons_nonProp _ _ (by simp)] at hlex
                      exact ih rest hlen lex hlex
                    · by_cases hdash : c = '-'
                      · subst hdash
                        cases rest with
                        | nil =>
                          have hd : scanTokens ['-'] = [] := by decide
                          rw [hd] at hlex
                          simp [varLexemes] at hlex
                        | cons c2 rest2 =>
                          have hlen2 : rest2.length ≤ n :=
                            Nat.le_of_succ_le hlen
                          by_cases hgt : c2 = '>'
                          · subst hgt
                            rw [scanTokens_impl,
                              varLexemes_cons_nonProp _ _ (by simp)] at hlex
                            exact ih rest2 hlen2 lex hlex
                          · rw [scanTokens_dash_swallow c2 rest2 hgt] at hlex
                            exact ih rest2 hlen2 lex hlex
                      · by_cases hlt : c = '<'
                        · subst hlt
                          cases rest with
                          | nil =>
                            have hd : scanTokens ['<'] = [] := by decide
                            rw [hd] at hlex
                            simp [varLexemes] at hlex
                          | cons c2 rest2 =>
                            have hlen2 : rest2.length ≤ n :=
                              Nat.le_of_succ_le hlen
                            by_cases hd2 : c2 = '-'
                            · subst hd2
                              cases rest2 with
                              | nil =>
                                have hd : scanTokens ['<', '-'] = [] := by decide
                                rw [hd] at hlex
                                simp [varLexemes] at hlex
                              | cons c3 rest3 =>
                                have hlen3 : rest3.length ≤ n :=
                                  Nat.le_of_succ_le hlen2
                                by_cases hg3 : c3 = '>'
                                · subst hg3
                                  rw [scanTokens_bicond,
                                    varLexemes_cons_nonProp _ _ (by simp)] at hlex
                                  exact ih rest3 hlen3 lex hlex
                                · rw [scanTokens_lt_dash_swallow c3 rest3 hg3] at hlex
                                  exact ih rest3 hlen3 lex hlex
                            · rw [scanTokens_lt_swallow c2 rest2 hd2] at hlex
                              exact ih rest2 hlen2 lex hlex
                        · have hcn : ¬(c ∈ opChars) := by
                            simp only [opChars, List.mem_cons, List.not_mem_nil, or_false]
                            tauto
                          rw [scanTokens_default c rest hcn,
                            varLexemes_cons_prop _ _ (by simp)] at hlex
                          simp only [List.mem_cons] at hlex
                          rcases hlex with rfl | hlex
                          · exact ⟨c, rfl, hcn⟩
                          · exact ih rest hlen lex hlex

/-- C10.  The variable registry never holds a key that is one of the
characters the scanner recognizes as a literal, operator, parenthesis
or space — in particular `v` always lexes as Disjunction and can never
be a propositional variable. -/
theorem registry_never_operator_char (cs : List Char) (c : Char) (hc : c ∈ opChars) :
    ¬([c] ∈ registryNames (scanTokens cs)) := by
  intro hmem
  have h1 : [c] ∈ varLexemes (scanTokens cs) := by
    have h2 := (mem_foldl_registryInsert (scanTokens cs) [] [c]).mp hmem
    simpa using h2
  obtain ⟨c2, hc2, hnotin⟩ := varLexemes_scan cs.length cs (Nat.le_refl _) [c] h1
  injection hc2 with h3 h4
  subst h3
  exact hnotin hc

/-- Witness for C10 at a concrete instance: `v` is not a registry key
of `pvq`. -/
theorem registry_never_operator_char_w :
    ¬(['v'] ∈ registryNames (scanTokens ['p', 'v', 'q'])) :=
  registry_never_operator_char ['p', 'v', 'q'] 'v' (by decide)

example : scanTokens ['p', ' ', '^'] =
    [⟨.PROPOSITION, 5, false, ['p']⟩, ⟨.CONJUNCTION, 1, false, ['^']⟩] := by decide

example : scanTokens ['-', 'p'] = [] := by decide

example : registryNames (scanTokens ['q', '^', 'p']) = [['p'], ['q']] := by decide

example : specFirstOccurrenceOrder (scanTokens ['q', '^', 'p']) = [['q'], ['p']] := by decide

example : toPostFix (scanTokens ['(', 'p']) = some [pvarT ['p'], lparenT] := by decide

example : toPostFix (scanTokens ['(', ')']) = some [] := by decide

example : checkedValidate (scanTokens ['p', '^', 'q']) = none := by decide

example : validateTokenString defaultToken defaultToken (scanTokens ['(', ')']) = true := by decide

example : convertAndEval (fun _ => false) (scanTokens ['p', '-', '>', 'q']) =
    convertAndEval (fun _ => false) (scanTokens ['(', 'p', ')', '-', '>', '(', 'q', ')']) := by decide

example :
    (truthTable (registryNames (scanTokens ['p', '^', 'q'])) (scanTokens ['p', '^', 'q'])).map
      Prod.snd = [some true, some false, some false, some false] := by decide

example :
    (truthTable (registryNames (scanTokens ['p', '^', 'q'])) (scanTokens ['p', '^', 'q'])).map
      Prod.fst = [[true, true], [true, false], [false, true], [false, false]] := by decide

